import Mathlib

/-!
Verification of the pass_manager repository: a shallow embedding of its
data model (Store, Item, User credentials), its crypto-vault composition
(passphrase-derived key wrapping a random master key), the diff engine,
the commit-message grammar with the history/undo engine, and the dirty-flag
bookkeeping of the item-mutation API.

Bytes are modelled as `Nat`, byte strings as `List Nat`.  The external
AES-256-GCM cipher and the Argon2 KDF are modelled at their interface:
an abstract authenticated-encryption scheme (`AeadScheme`) with its
documented correctness contract (`AeadCorrect`), and an abstract
deterministic function `Kdf`.  hashbrown `HashMap`s are modelled as
association lists (`List (K × V)`) with first-occurrence lookup; the
map invariant (no duplicate keys) appears as a hypothesis where the
statement depends on it.
-/

/-! ## Association-list model of hashbrown HashMap -/

/-- First-occurrence lookup, the model of `HashMap::get`. -/
def lookupAL {K V : Type} [DecidableEq K] (k : K) : List (K × V) → Option V
  | [] => none
  | p :: ps => if p.1 = k then some p.2 else lookupAL k ps

/-- Model of `HashMap::contains_key`. -/
def containsKey {K V : Type} [DecidableEq K] (k : K) (m : List (K × V)) : Bool :=
  (lookupAL k m).isSome

/-- Model of `HashMap::remove`: drops the binding for `k`. -/
def removeAL {K V : Type} [DecidableEq K] (k : K) (m : List (K × V)) : List (K × V) :=
  m.filter (fun p => p.1 ≠ k)

/-- Model of `HashMap::insert` (also the write half of `Entry::insert`):
the new binding replaces any previous binding for the key. -/
def insertAL {K V : Type} [DecidableEq K] (k : K) (v : V) (m : List (K × V)) :
    List (K × V) :=
  (k, v) :: removeAL k m

theorem lookupAL_insert {K V : Type} [DecidableEq K] (k : K) (v : V) (m : List (K × V)) :
    lookupAL k (insertAL k v m) = some v := by
  simp [insertAL, lookupAL]

theorem lookupAL_removeAL {K V : Type} [DecidableEq K] (k k' : K) (m : List (K × V)) :
    lookupAL k (removeAL k' m) = if k = k' then none else lookupAL k m := by
  induction m with
  | nil => simp [removeAL, lookupAL]
  | cons p ps ih =>
    simp only [removeAL, List.filter_cons] at ih ⊢
    by_cases hp : p.1 = k'
    · rw [if_neg (by simp [hp])]
      by_cases hk : k = k'
      · simpa [hk] using ih
      · have hpk : ¬p.1 = k := fun h => hk ((h.symm.trans hp))
        simpa [hk, lookupAL, hpk] using ih
    · rw [if_pos (by simp [hp])]
      by_cases hpk : p.1 = k
      · have hk : ¬k = k' := fun h => hp (hpk.trans h)
        simp [lookupAL, hpk, hk]
      · simpa [lookupAL, hpk] using ih

theorem lookupAL_insert_ne {K V : Type} [DecidableEq K] {k k' : K} (h : k ≠ k')
    (v : V) (m : List (K × V)) :
    lookupAL k (insertAL k' v m) = lookupAL k m := by
  have hk : ¬k' = k := fun hh => h hh.symm
  simp [insertAL, lookupAL, hk, lookupAL_removeAL, h]

theorem containsKey_iff_mem_keys {K V : Type} [DecidableEq K] (k : K) (m : List (K × V)) :
    containsKey k m = true ↔ k ∈ m.map Prod.fst := by
  induction m with
  | nil => simp [containsKey, lookupAL]
  | cons p ps ih =>
    by_cases h : p.1 = k
    · simp [containsKey, lookupAL, h]
    · have h' : ¬k = p.1 := fun hh => h hh.symm
      simpa [containsKey, lookupAL, h, h'] using ih

/-! ## Crypto Vault: the external AEAD cipher and KDF, at their interface -/

/-- An authenticated-encryption scheme with key, nonce, plaintext and
ciphertext all byte strings; the model of the external `Aes256Gcm`
(`encrypt` = `Aead::encrypt`, `decrypt` = `Aead::decrypt`, with `none`
standing for an authentication failure `aes_gcm::Error`). -/
structure AeadScheme where
  encrypt : List Nat → List Nat → List Nat → List Nat
  decrypt : List Nat → List Nat → List Nat → Option (List Nat)

/-- The documented correctness contract of AES-256-GCM: decrypting under
the same key and nonce recovers the plaintext. -/
def AeadCorrect (s : AeadScheme) : Prop :=
  ∀ key nonce pt, s.decrypt key nonce (s.encrypt key nonce pt) = some pt

/-- The external Argon2 KDF at its interface: a deterministic function
from (passphrase, salt) to a 32-byte derived key
(`Argon2::default().hash_password_into`). -/
def Kdf : Type := String → List Nat → List Nat

/-- A degenerate scheme (ciphertext = plaintext) satisfying the AEAD
correctness contract; used to evaluate the theorems on concrete inputs. -/
def idAead : AeadScheme where
  encrypt := fun _ _ pt => pt
  decrypt := fun _ _ ct => some ct

theorem idAead_correct : AeadCorrect idAead := fun _ _ _ => rfl

/-- A degenerate KDF for concrete evaluation. -/
def constKdf : Kdf := fun _ _ => List.replicate 32 0

/-! ## Store and Item (src/store.rs) -/

/-- `Item { nonce: [u8; 12], password: Vec<u8> }`: one unit of
authenticated encryption under the master key. -/
structure Item where
  nonce : List Nat
  password : List Nat
deriving DecidableEq, Repr

/-- `Store { key, nonce, salt, items }`: the wrapped master key, its
wrap nonce and KDF salt, and the label-indexed item map. -/
structure Store where
  key : List Nat
  nonce : List Nat
  salt : List Nat
  items : List (String × Item)
deriving DecidableEq, Repr

/-- `Store::new(key, salt, nonce)`: empty item map. -/
def Store.mkNew (key : List Nat) (salt : List Nat) (nonce : List Nat) : Store :=
  { key := key, nonce := nonce, salt := salt, items := [] }

/-! ## Manager construction (src/manager.rs) -/

/-- `length_validator`: accepts exactly the inputs of length ≥ 8. -/
def length_validator (inp : String) : Except String Unit :=
  if inp.length ≥ 8 then Except.ok () else Except.error "Password must be longer than 8"

/-- Model of a `dialoguer::Password` prompt carrying a `validate_with`
validator: the prompt hands `input` onward only if the validator accepts
it (otherwise it re-prompts, so invalid text never flows further). -/
def promptValidated (validator : String → Except String Unit) (input : String) :
    Option String :=
  match validator input with
  | Except.ok _ => some input
  | Except.error _ => none

/-- Model of a `dialoguer::Password` prompt with no validator attached
(as in `Manager::init`): every input flows onward. -/
def promptPlain (input : String) : Option String := some input

/-- The crypto core of `Manager::init`: derive a key from the new
passphrase and the fresh salt, and wrap the fresh random master key
under it with the fresh wrap nonce, producing the initial `Store`.
The randomly drawn salt, nonce and master key are explicit inputs. -/
def managerInit (aead : AeadScheme) (kdf : Kdf) (passphrase : String)
    (salt nonce masterKey : List Nat) : Store :=
  let derivedKey := kdf passphrase salt
  let encryptedKey := aead.encrypt derivedKey nonce masterKey
  Store.mkNew encryptedKey salt nonce

/-- `Manager::init` including its passphrase prompt: the prompt has a
confirmation but **no** `validate_with`, so any passphrase reaches the KDF. -/
def managerInitFromPrompt (aead : AeadScheme) (kdf : Kdf) (passphrase : String)
    (salt nonce masterKey : List Nat) : Option Store :=
  (promptPlain passphrase).map (fun p => managerInit aead kdf p salt nonce masterKey)

/-- The crypto core of `Manager::new` (unlock): derive a key from the
entered passphrase and the stored salt, decrypt the stored wrapped key
with the stored nonce, and require the result to be 32 bytes
(`try_into` to `[u8; 32]`).  `none` models the fatal unlock failure. -/
def managerNew (aead : AeadScheme) (kdf : Kdf) (store : Store)
    (passphrase : String) : Option (List Nat) :=
  let derivedKey := kdf passphrase store.salt
  (aead.decrypt derivedKey store.nonce store.key).bind
    (fun key => if key.length = 32 then some key else none)

/-- `Manager::new` including its passphrase prompt, which carries
`validate_with(length_validator)`. -/
def managerNewFromPrompt (aead : AeadScheme) (kdf : Kdf) (store : Store)
    (passphrase : String) : Option (Option (List Nat)) :=
  (promptValidated length_validator passphrase).map (fun p => managerNew aead kdf store p)

/-! ### The C1 round-trip -/

/-- C1: for every passphrase, salt, wrap nonce and 32-byte master key,
unwrapping (with the key derived from the same passphrase and salt) the
ciphertext produced by wrapping the master key under that derived key
and nonce returns exactly the master key: a store created by
`Manager::init` unlocks in `Manager::new` under the same passphrase,
recovering the same master key. -/
theorem init_new_roundtrip (aead : AeadScheme) (kdf : Kdf)
    (hc : AeadCorrect aead) (passphrase : String)
    (salt nonce masterKey : List Nat) (hlen : masterKey.length = 32) :
    managerNew aead kdf (managerInit aead kdf passphrase salt nonce masterKey)
      passphrase = some masterKey := by
  simp [managerNew, managerInit, Store.mkNew, hc _ _ _, hlen]

theorem init_new_roundtrip_witness :
    AeadCorrect idAead ∧ (List.replicate 32 (7 : Nat)).length = 32 ∧
      managerNew idAead constKdf
        (managerInit idAead constKdf "correcthorse" [1, 2] [3, 4]
          (List.replicate 32 7)) "correcthorse" = some (List.replicate 32 7) :=
  ⟨idAead_correct, by simp,
    init_new_roundtrip idAead constKdf idAead_correct "correcthorse" [1, 2] [3, 4]
      (List.replicate 32 7) (by simp)⟩

/-! ## Manager in-memory state and the item-mutation API (src/manager.rs) -/

/-- The in-memory fields of `Manager` that the item-mutation API touches:
the store, the two cipher keys (`key_aes` is keyed by the passphrase-derived
key, `store_aes` by the unwrapped master key), the dirty flag and the
success message. -/
structure ManagerState where
  store : Store
  keyAesKey : List Nat
  storeAesKey : List Nat
  fsDirty : Bool
  successMessage : Option String
deriving DecidableEq, Repr

/-- `Manager::add`: encrypt the (entered or generated) password under
`store_aes` with a fresh random nonce, then insert through the entry API:
a vacant label inserts unconditionally; an occupied label inserts only if
`overwrite` is set or the interactive confirmation is answered yes.
`fs_dirty` and the success message are set unconditionally afterwards. -/
def managerAdd (aead : AeadScheme) (m : ManagerState) (label : String)
    (password nonceSlice : List Nat) (overwrite confirmAnswer : Bool) :
    ManagerState :=
  let ciphertext := aead.encrypt m.storeAesKey nonceSlice password
  let items' :=
    match lookupAL label m.store.items with
    | none => insertAL label (Item.mk nonceSlice ciphertext) m.store.items
    | some _ =>
      if overwrite || confirmAnswer then
        insertAL label (Item.mk nonceSlice ciphertext) m.store.items
      else
        m.store.items
  { m with store := { m.store with items := items' },
           fsDirty := true,
           successMessage := some ("Successfully added " ++ label ++ " to store") }

/-- `Manager::delete`: remove the binding; the second component records
whether the "No item found in store" notice was printed (remove returned
`None`).  `fs_dirty` and the success message are set unconditionally. -/
def managerDelete (m : ManagerState) (label : String) : ManagerState × Bool :=
  ({ m with store := { m.store with items := removeAL label m.store.items },
            fsDirty := true,
            successMessage := some ("Successfully deleted " ++ label ++ " from store") },
   !(containsKey label m.store.items))

/-- `Manager::copy`: when the label is absent, print the notice and return
`Ok` with the state untouched (second component `true` = notice printed);
otherwise decrypt the item (failure propagates, modelled as `none`) and set
only the success message. -/
def managerCopy (aead : AeadScheme) (m : ManagerState) (label : String) :
    Option (ManagerState × Bool) :=
  match lookupAL label m.store.items with
  | none => some (m, true)
  | some item =>
    (aead.decrypt m.storeAesKey item.nonce item.password).map
      (fun _plaintext =>
        let msg := "Successfully copied " ++ label ++ " to clipboard"
        ({ m with successMessage := some msg }, false))

/-- Decrypt every item under a given key, pairing labels with plaintexts
(the loop body of `Manager::list`); a decryption failure propagates. -/
def listUnderKey (aead : AeadScheme) (key : List Nat)
    (items : List (String × Item)) : Option (List (String × List Nat)) :=
  items.mapM (fun p =>
    (aead.decrypt key p.2.nonce p.2.password).map (fun pt => (p.1, pt)))

/-- `Manager::list`: on an empty store print the notice and return `Ok`
(`some none`); otherwise render every decrypted row (`some (some rows)`),
propagating decryption failures (`none`). -/
def managerList (aead : AeadScheme) (m : ManagerState) :
    Option (Option (List (String × List Nat))) :=
  if m.store.items.isEmpty then some none
  else (listUnderKey aead m.storeAesKey m.store.items).map some

/-- `Manager::list` with its `&self` receiver made explicit: the dispatched
call hands the state back unchanged next to the rendered output. -/
def managerListRun (aead : AeadScheme) (m : ManagerState) :
    Option (ManagerState × Option (List (String × List Nat))) :=
  (managerList aead m).map (fun rows => (m, rows))

/-- `Manager::modify` (rekey, src/store.rs): unwrap the existing master
key with `key_aes` under the current wrap nonce, draw a fresh salt and
nonce, derive a key from the new passphrase and the fresh salt, re-wrap
the same master key, and replace only the store's key-wrapping fields.
`key_aes`, `store_aes` and the items are not touched. -/
def managerModify (aead : AeadScheme) (kdf : Kdf) (m : ManagerState)
    (newPass : String) (newSalt newNonce : List Nat) : Option ManagerState :=
  (aead.decrypt m.keyAesKey m.store.nonce m.store.key).map (fun encKey =>
    let newCipherKey := kdf newPass newSalt
    let newKey := aead.encrypt newCipherKey newNonce encKey
    { m with store := { m.store with nonce := newNonce, salt := newSalt, key := newKey },
             fsDirty := true,
             successMessage := some "Successfully modified store key" })

/-- `Manager::modify` including its passphrase prompt, which carries a
confirmation and `validate_with(length_validator)`. -/
def managerModifyFromPrompt (aead : AeadScheme) (kdf : Kdf) (m : ManagerState)
    (newPass : String) (newSalt newNonce : List Nat) : Option (Option ManagerState) :=
  (promptValidated length_validator newPass).map
    (fun p => managerModify aead kdf m p newSalt newNonce)

/-! ## The save path: one commit per dirty invocation -/

/-- One commit of the backing repository, as far as the history/undo
engine reads it: the structured message and the Store blob (its item
map) recorded in the commit's tree. -/
structure CommitRec where
  message : String
  storeItems : List (String × Item)
deriving DecidableEq, Repr

/-- A manager together with the commit list of its repository, HEAD
first. -/
structure Session where
  mgr : ManagerState
  commits : List CommitRec
deriving DecidableEq, Repr

/-- `Manager::save`: if the dirty flag is set, serialize the store and
commit it with the generated message, the new commit's parent being the
prior HEAD; otherwise no commit is made. -/
def sessionSave (s : Session) (message : String) : Session :=
  if s.mgr.fsDirty then
    { s with commits := CommitRec.mk message s.mgr.store.items :: s.commits }
  else s

/-! ## Helper lemmas on remove -/

theorem removeAL_eq_self {K V : Type} [DecidableEq K] {k : K} {m : List (K × V)}
    (h : containsKey k m = false) : removeAL k m = m := by
  rw [removeAL, List.filter_eq_self]
  intro p hp
  simp only [ne_eq, decide_eq_true_eq]
  intro hpk
  have hmem : containsKey k m = true :=
    (containsKey_iff_mem_keys k m).mpr (hpk ▸ List.mem_map_of_mem Prod.fst hp)
  rw [hmem] at h
  cases h

/-! ## C3: the rekey frame property -/

/-- The session invariant of an unlocked manager: the stored wrapped key
is the encryption of the in-memory master key under the in-memory
passphrase-derived key and the stored wrap nonce. -/
def WrapsMasterKey (aead : AeadScheme) (m : ManagerState) : Prop :=
  m.store.key = aead.encrypt m.keyAesKey m.store.nonce m.storeAesKey

/-- C3: `modify()` (rekey) replaces only the store's key-wrapping fields
— fresh `kdf_salt` and `wrap_nonce`, and the existing master key
re-wrapped under the new passphrase-derived key — while every item's
nonce and ciphertext are byte-for-byte unchanged, and reopening with the
new passphrase recovers the same master key, hence decrypts all items to
the same plaintexts as before. -/
theorem modify_rekey_frame (aead : AeadScheme) (kdf : Kdf)
    (hc : AeadCorrect aead) (m : ManagerState) (hw : WrapsMasterKey aead m)
    (hlen : m.storeAesKey.length = 32)
    (newPass : String) (newSalt newNonce : List Nat) :
    ∃ m', managerModify aead kdf m newPass newSalt newNonce = some m' ∧
      m'.store.items = m.store.items ∧
      m'.store.salt = newSalt ∧
      m'.store.nonce = newNonce ∧
      m'.store.key = aead.encrypt (kdf newPass newSalt) newNonce m.storeAesKey ∧
      managerNew aead kdf m'.store newPass = some m.storeAesKey ∧
      (∀ key', managerNew aead kdf m'.store newPass = some key' →
        listUnderKey aead key' m'.store.items =
          listUnderKey aead m.storeAesKey m.store.items) := by
  have hdec : aead.decrypt m.keyAesKey m.store.nonce m.store.key = some m.storeAesKey := by
    rw [hw]; exact hc _ _ _
  have hmod : managerModify aead kdf m newPass newSalt newNonce =
      some { store := Store.mk
               (aead.encrypt (kdf newPass newSalt) newNonce m.storeAesKey)
               newNonce newSalt m.store.items,
             keyAesKey := m.keyAesKey, storeAesKey := m.storeAesKey,
             fsDirty := true,
             successMessage := some "Successfully modified store key" } := by
    simp [managerModify, hdec]
  have hnew : managerNew aead kdf
      (Store.mk (aead.encrypt (kdf newPass newSalt) newNonce m.storeAesKey)
        newNonce newSalt m.store.items) newPass =
      some m.storeAesKey := by
    simp [managerNew, hc _ _ _, hlen]
  refine ⟨_, hmod, rfl, rfl, rfl, rfl, hnew, ?_⟩
  intro key' hk
  rw [hnew] at hk
  injection hk with h
  rw [← h]

theorem modify_rekey_frame_witness :
    ∃ m', managerModify idAead constKdf
        ⟨⟨List.replicate 32 0, [1, 2], [3], [("a", ⟨[9], [8]⟩)]⟩,
          [7], List.replicate 32 0, false, none⟩ "newpassword" [4] [5] = some m' ∧
      m'.store.items = [("a", ⟨[9], [8]⟩)] ∧
      m'.store.salt = [4] ∧
      m'.store.nonce = [5] ∧
      m'.store.key = idAead.encrypt (constKdf "newpassword" [4]) [5] (List.replicate 32 0) ∧
      managerNew idAead constKdf m'.store "newpassword" = some (List.replicate 32 0) ∧
      (∀ key', managerNew idAead constKdf m'.store "newpassword" = some key' →
        listUnderKey idAead key' m'.store.items =
          listUnderKey idAead (List.replicate 32 0) [("a", ⟨[9], [8]⟩)]) :=
  modify_rekey_frame idAead constKdf idAead_correct
    ⟨⟨List.replicate 32 0, [1, 2], [3], [("a", ⟨[9], [8]⟩)]⟩,
      [7], List.replicate 32 0, false, none⟩ rfl (by simp) "newpassword" [4] [5]

/-! ## C4: notices and the dirty flag -/

/-- C4 counterexample: deleting a label that is absent from the store
prints the notice but still marks the manager dirty, and the subsequent
save therefore creates a commit — refuting the claim that recoverable
user errors end without marking the state dirty. -/
theorem dirty_flag_counterexample :
    containsKey "x"
        (⟨⟨[], [], [], []⟩, [], [], false, none⟩ : ManagerState).store.items = false ∧
    (managerDelete ⟨⟨[], [], [], []⟩, [], [], false, none⟩ "x").2 = true ∧
    (managerDelete ⟨⟨[], [], [], []⟩, [], [], false, none⟩ "x").1.fsDirty = true ∧
    (sessionSave ⟨(managerDelete ⟨⟨[], [], [], []⟩, [], [], false, none⟩ "x").1, []⟩
        "store delete x").commits.length = 1 := by
  refine ⟨rfl, rfl, rfl, rfl⟩

/-- C4 amended: `copy` and `list` never change the dirty flag, and the
recoverable errors report their notice and leave the item map unchanged;
but `delete` with an absent label and an `add` whose overwrite
confirmation is declined still set the dirty flag unconditionally, so
the subsequent save does create a commit (dirty saves always commit). -/
theorem dirty_flag_amended (aead : AeadScheme) (m : ManagerState) (label : String)
    (password nonceSlice : List Nat) :
    (∀ st notice, managerCopy aead m label = some (st, notice) →
      st.fsDirty = m.fsDirty) ∧
    (∀ st rows, managerListRun aead m = some (st, rows) → st.fsDirty = m.fsDirty) ∧
    (containsKey label m.store.items = false →
      (managerDelete m label).2 = true ∧
      (managerDelete m label).1.store.items = m.store.items ∧
      (managerDelete m label).1.fsDirty = true) ∧
    (containsKey label m.store.items = true →
      (managerAdd aead m label password nonceSlice false false).store.items
        = m.store.items ∧
      (managerAdd aead m label password nonceSlice false false).fsDirty = true) ∧
    (∀ s msg, s.mgr.fsDirty = true →
      (sessionSave s msg).commits = CommitRec.mk msg s.mgr.store.items :: s.commits) := by
  refine ⟨?_, ?_, ?_, ?_, ?_⟩
  · intro st notice h
    cases hl : lookupAL label m.store.items with
    | none => simp [managerCopy, hl] at h; rw [← h.1]
    | some item =>
      cases hd : aead.decrypt m.storeAesKey item.nonce item.password with
      | none => simp [managerCopy, hl, hd] at h
      | some pt => simp [managerCopy, hl, hd] at h; rw [← h.1]
  · intro st rows h
    cases hr : managerList aead m with
    | none => simp [managerListRun, hr] at h
    | some r => simp [managerListRun, hr] at h; rw [← h.1]
  · intro habs
    refine ⟨by simp [managerDelete, habs], ?_, rfl⟩
    simp [managerDelete, removeAL_eq_self habs]
  · intro hpres
    rcases Option.isSome_iff_exists.mp hpres with ⟨v, hv⟩
    refine ⟨?_, rfl⟩
    simp [managerAdd, hv]
  · intro s msg h
    simp [sessionSave, h]

theorem dirty_flag_amended_witness :
    ((managerDelete (⟨⟨[], [], [], []⟩, [], [], false, none⟩ : ManagerState) "x").1.fsDirty
        = true) ∧
    ((managerAdd idAead
        (⟨⟨[], [], [], [("x", ⟨[1], [2]⟩)]⟩, [], [], false, none⟩ : ManagerState)
        "x" [3] [4] false false).store.items = [("x", ⟨[1], [2]⟩)]) := by
  refine ⟨((dirty_flag_amended idAead
      ⟨⟨[], [], [], []⟩, [], [], false, none⟩ "x" [3] [4]).2.2.1 rfl).2.2, ?_⟩
  exact ((dirty_flag_amended idAead
      ⟨⟨[], [], [], [("x", ⟨[1], [2]⟩)]⟩, [], [], false, none⟩ "x" [3] [4]).2.2.2.1 rfl).1

/-! ## C5: passphrase length validation -/

/-- C5 counterexample: `Manager::init` accepts the 3-character passphrase
"abc" — its prompt has a confirmation but no validator — so a passphrase
shorter than 8 characters reaches the Argon2 KDF on the creation path,
refuting the claim that every passphrase-accepting path validates the
minimum length first. -/
theorem init_no_length_validation_counterexample :
    "abc".length < 8 ∧
    managerInitFromPrompt idAead constKdf "abc" [1] [2] (List.replicate 32 0) =
      some (managerInit idAead constKdf "abc" [1] [2] (List.replicate 32 0)) :=
  ⟨by decide, rfl⟩

/-- C5 amended: the unlock path (`Manager::new`) and the rekey path
(`modify`) hand the passphrase to the KDF exactly when it is at least 8
characters long, but the creation path (`Manager::init`) attaches no
validator and hands any passphrase to the KDF. -/
theorem passphrase_validation_amended (aead : AeadScheme) (kdf : Kdf)
    (store : Store) (m : ManagerState) (pass : String)
    (salt nonce masterKey : List Nat) :
    ((managerNewFromPrompt aead kdf store pass).isSome ↔ 8 ≤ pass.length) ∧
    ((managerModifyFromPrompt aead kdf m pass salt nonce).isSome ↔ 8 ≤ pass.length) ∧
    (managerInitFromPrompt aead kdf pass salt nonce masterKey).isSome := by
  refine ⟨?_, ?_, by simp [managerInitFromPrompt, promptPlain]⟩ <;>
    by_cases h : 8 ≤ pass.length <;>
      simp [managerNewFromPrompt, managerModifyFromPrompt, promptValidated,
        length_validator, h]

/-! ## Commit-message grammar and the history/undo engine -/

/-- Rust `str::split(sep)` over the characters of the string: adjacent
separators and leading/trailing separators produce empty fragments, and
the empty string yields one empty fragment. -/
def splitChar (sep : Char) : List Char → List (List Char)
  | [] => [[]]
  | c :: cs =>
    match splitChar sep cs with
    | [] => [[]]
    | t :: ts => if c = sep then [] :: t :: ts else (c :: t) :: ts

theorem splitChar_ne_nil (sep : Char) (l : List Char) : splitChar sep l ≠ [] := by
  cases l with
  | nil => simp [splitChar]
  | cons c cs =>
    simp only [splitChar]
    cases splitChar sep cs with
    | nil => simp
    | cons t ts => by_cases h : c = sep <;> simp [h]

/-- `parse_commit_message`: split the message on single spaces and, when
exactly two tokens result, append the implicit value "-". -/
def parse_commit_message (message : String) : List String :=
  let parts := (splitChar ' ' message.data).map (fun cs => String.mk cs)
  if parts.length = 2 then parts ++ ["-"] else parts

theorem parse_commit_message_length_ne_two (message : String) :
    (parse_commit_message message).length ≠ 2 := by
  rw [parse_commit_message]
  by_cases h : (splitChar ' ' message.data).length = 2 <;> simp [h]

theorem parse_commit_message_ne_nil (message : String) :
    parse_commit_message message ≠ [] := by
  rw [parse_commit_message]
  by_cases h2 : (splitChar ' ' message.data).length = 2
  · simp [h2]
  · simp only [List.length_map, h2, if_false, ne_eq, List.map_eq_nil_iff]
    exact splitChar_ne_nil ' ' message.data

/-- How `Manager::undo` reacts to one commit message: the result of
matching `(parts[0], parts[1])` in the source.  `idxOut` stands for an
out-of-bounds `Vec` index — the process panics. -/
inductive UndoOutcome where
  | idxOut
  | formatErr (message : String)
  | storeAddUndo (label : String)
  | storeDeleteUndo (label : String)
  | storeResetUndo
  | modifyNotice
  | userSetRestore (fields : String)
deriving DecidableEq, Repr

/-- The dispatch of `Manager::undo` on the parsed message parts,
translating each `parts[i]` access as an `idxOut` on out-of-range. -/
def undoDispatchParts (message : String) (parts : List String) : UndoOutcome :=
  match parts.get? 0 with
  | none => UndoOutcome.idxOut
  | some area =>
    if area = "store" then
      match parts.get? 1 with
      | none => UndoOutcome.idxOut
      | some action =>
        if action = "add" then
          match parts.get? 2 with
          | none => UndoOutcome.idxOut
          | some label => UndoOutcome.storeAddUndo label
        else if action = "delete" then
          match parts.get? 2 with
          | none => UndoOutcome.idxOut
          | some label => UndoOutcome.storeDeleteUndo label
        else if action = "reset" then UndoOutcome.storeResetUndo
        else if action = "modify" then UndoOutcome.modifyNotice
        else UndoOutcome.formatErr message
    else if area = "user" then
      match parts.get? 1 with
      | none => UndoOutcome.idxOut
      | some action =>
        if action = "set" then
          match parts.get? 2 with
          | none => UndoOutcome.idxOut
          | some fields => UndoOutcome.userSetRestore fields
        else UndoOutcome.formatErr message
    else UndoOutcome.formatErr message

/-- `Manager::undo`'s classification of a raw commit message. -/
def undoDispatch (message : String) : UndoOutcome :=
  undoDispatchParts message (parse_commit_message message)

/-- The recognized `(area, action)` shapes of the commit-message grammar:
store add/delete/reset/modify and user set. -/
def recognizedShape (parts : List String) : Bool :=
  match parts.get? 0, parts.get? 1 with
  | some area, some action =>
    if area = "store" then
      action = "add" || action = "delete" || action = "reset" || action = "modify"
    else if area = "user" then
      action = "set"
    else false
  | _, _ => false

theorem undoDispatchParts_single (msg a : String) :
    undoDispatchParts msg [a] =
      if a = "store" then UndoOutcome.idxOut
      else if a = "user" then UndoOutcome.idxOut
      else UndoOutcome.formatErr msg := by
  by_cases ha : a = "store"
  · subst ha; rfl
  · by_cases hu : a = "user"
    · subst hu; rfl
    · simp [undoDispatchParts, List.get?, ha, hu]

theorem undoDispatchParts_cons3_ne_idxOut (msg a b c : String) (rest : List String) :
    undoDispatchParts msg (a :: b :: c :: rest) ≠ UndoOutcome.idxOut := by
  by_cases ha : a = "store"
  · subst ha
    simp only [undoDispatchParts, List.get?]
    split_ifs <;> simp
  · by_cases hu : a = "user"
    · subst hu
      simp only [undoDispatchParts, List.get?]
      split_ifs <;> simp
    · simp [undoDispatchParts, List.get?, ha, hu]

theorem undoDispatchParts_not_recognized (msg a b c : String) (rest : List String)
    (h : recognizedShape (a :: b :: c :: rest) = false) :
    undoDispatchParts msg (a :: b :: c :: rest) = UndoOutcome.formatErr msg := by
  by_cases ha : a = "store"
  · subst ha
    have h1 : b ≠ "add" := by
      intro hb; subst hb; simp [recognizedShape, List.get?] at h
    have h2 : b ≠ "delete" := by
      intro hb; subst hb; simp [recognizedShape, List.get?] at h
    have h3 : b ≠ "reset" := by
      intro hb; subst hb; simp [recognizedShape, List.get?] at h
    have h4 : b ≠ "modify" := by
      intro hb; subst hb; simp [recognizedShape, List.get?] at h
    simp [undoDispatchParts, List.get?, h1, h2, h3, h4]
  · by_cases hu : a = "user"
    · subst hu
      have h5 : b ≠ "set" := by
        intro hb; subst hb; simp [recognizedShape, List.get?] at h
      simp [undoDispatchParts, List.get?, h5]
    · simp [undoDispatchParts, List.get?, ha, hu]

/-! ## C6: malformed commit messages in undo -/

/-- C6 counterexample: the single-token commit message "store" parses to
an unrecognized shape, yet `undo` reads `parts[1]` out of bounds — a
panic — instead of failing with the bad-commit-message-format error. -/
theorem undo_malformed_counterexample :
    undoDispatch "store" = UndoOutcome.idxOut ∧
    recognizedShape (parse_commit_message "store") = false :=
  ⟨rfl, rfl⟩

/-- C6 amended: every commit message whose parsed (area, action) shape is
not recognized makes undo fail with the bad-commit-message-format error,
except that a message parsing to the single token "store" or "user"
panics on an out-of-bounds `parts[1]` index — and the panic happens on
exactly those two parses. -/
theorem undo_malformed_amended (m : String) :
    (undoDispatch m = UndoOutcome.idxOut ↔
      parse_commit_message m = ["store"] ∨ parse_commit_message m = ["user"]) ∧
    (recognizedShape (parse_commit_message m) = false →
      undoDispatch m = UndoOutcome.formatErr m ∨
        undoDispatch m = UndoOutcome.idxOut) := by
  have hd : undoDispatch m = undoDispatchParts m (parse_commit_message m) := rfl
  rcases hp : parse_commit_message m with _ | ⟨a, _ | ⟨b, _ | ⟨c, rest⟩⟩⟩
  · exact absurd hp (parse_commit_message_ne_nil m)
  · rw [hd, hp, undoDispatchParts_single]
    constructor
    · by_cases ha : a = "store"
      · simp [ha]
      · by_cases hu : a = "user" <;> simp [ha, hu]
    · intro _
      by_cases ha : a = "store"
      · simp [ha]
      · by_cases hu : a = "user" <;> simp [ha, hu]
  · exact absurd (by simp [hp]) (parse_commit_message_length_ne_two m)
  · rw [hd, hp]
    constructor
    · constructor
      · intro h
        exact absurd h (undoDispatchParts_cons3_ne_idxOut m a b c rest)
      · intro h
        rcases h with h | h <;> simp at h
    · intro hrec
      rw [undoDispatchParts_not_recognized m a b c rest hrec]
      left; rfl

theorem undo_malformed_amended_witness :
    (undoDispatch "garbage message here" = UndoOutcome.formatErr "garbage message here" ∨
      undoDispatch "garbage message here" = UndoOutcome.idxOut) ∧
    recognizedShape (parse_commit_message "garbage message here") = false :=
  ⟨(undo_malformed_amended "garbage message here").2 rfl, rfl⟩

/-! ## Session-level undo -/

/-- The item-map assignments inside the undo branches: they replace only
`self.store.items`, touching neither the dirty flag nor the key fields. -/
def setItems (m : ManagerState) (items : List (String × Item)) : ManagerState :=
  { m with store := { m.store with items := items } }

/-- Undo of `store add <label>`: the source calls `self.delete(label)`. -/
def sessionUndoStoreAdd (s : Session) (label : String) : Session :=
  { s with mgr := (managerDelete s.mgr label).1 }

/-- The outcomes of `Manager::undo` run against HEAD: `headErr` models a
failed HEAD resolution, `idxOut` a panicking vector or map index,
`missingParent` the missing-parent/missing-blob hard error, `notice` the
recoverable store-modify notice, and `userArea` marks the user-record
branch, which acts on the user blob outside the store model. -/
inductive UndoResult where
  | headErr
  | idxOut
  | formatErr (message : String)
  | missingParent
  | notice (s : Session)
  | userArea (s : Session) (fields : String)
  | ok (s : Session)
deriving DecidableEq, Repr

/-- `Manager::undo(None)` (undo of HEAD) over the session: read HEAD's
message, dispatch on its parsed shape, and for the store delete/reset
branches read the Store blob out of the parent commit.  The add branch
deletes the label; the delete branch inserts the parent's binding for the
label — a direct map index that panics when the label is absent; the
reset branch restores the parent's whole item map. -/
def sessionUndoHead (s : Session) : UndoResult :=
  match s.commits with
  | [] => UndoResult.headErr
  | c :: rest =>
    match undoDispatch c.message with
    | UndoOutcome.idxOut => UndoResult.idxOut
    | UndoOutcome.formatErr msg => UndoResult.formatErr msg
    | UndoOutcome.storeAddUndo label => UndoResult.ok (sessionUndoStoreAdd s label)
    | UndoOutcome.storeDeleteUndo label =>
      match rest with
      | [] => UndoResult.missingParent
      | parent :: _ =>
        match lookupAL label parent.storeItems with
        | none => UndoResult.idxOut
        | some item =>
          UndoResult.ok
            { s with mgr := setItems s.mgr (insertAL label item s.mgr.store.items) }
    | UndoOutcome.storeResetUndo =>
      match rest with
      | [] => UndoResult.missingParent
      | parent :: _ => UndoResult.ok { s with mgr := setItems s.mgr parent.storeItems }
    | UndoOutcome.modifyNotice => UndoResult.notice s
    | UndoOutcome.userSetRestore fields => UndoResult.userArea s fields

/-! ## C7: undo of add -/

/-- C7 counterexample: when label "x" already existed with a different
value, `add("x", ..., overwrite)` followed by `undo(HEAD)` ends with a
store that lacks "x" entirely, which is **not** the prior HEAD's item
set (that set bound "x" to the old item). -/
theorem undo_add_counterexample :
    undoDispatch "store add x" = UndoOutcome.storeAddUndo "x" ∧
    sessionUndoHead (sessionSave
        ⟨managerAdd idAead ⟨⟨[], [], [], [("x", ⟨[1], [2]⟩)]⟩, [], [], false, none⟩
            "x" [5] [6] true false, []⟩ "store add x") =
      UndoResult.ok ⟨⟨⟨[], [], [], []⟩, [], [], true,
          some "Successfully deleted x from store"⟩,
        [⟨"store add x", [("x", ⟨[6], [5]⟩)]⟩]⟩ ∧
    lookupAL "x" ([] : List (String × Item)) = none ∧
    lookupAL "x" [("x", (⟨[1], [2]⟩ : Item))] = some ⟨[1], [2]⟩ ∧
    ([] : List (String × Item)) ≠ [("x", ⟨[1], [2]⟩)] := by
  refine ⟨rfl, rfl, rfl, rfl, by decide⟩

/-- C7 amended: when the label was absent beforehand, `add` followed
immediately by `undo(HEAD)` leaves the store without the label and
restores the prior item map exactly (pointwise); undo itself creates no
commit — the commit list stays the one produced by the save of the add. -/
theorem undo_add_amended (aead : AeadScheme) (s : Session) (label : String)
    (password nonceSlice : List Nat) (ov conf : Bool) (msg : String)
    (habs : lookupAL label s.mgr.store.items = none)
    (hmsg : undoDispatch msg = UndoOutcome.storeAddUndo label) :
    sessionUndoHead (sessionSave
        ⟨managerAdd aead s.mgr label password nonceSlice ov conf, s.commits⟩ msg) =
      UndoResult.ok
        ⟨(managerDelete (managerAdd aead s.mgr label password nonceSlice ov conf)
            label).1,
          CommitRec.mk msg
              (managerAdd aead s.mgr label password nonceSlice ov conf).store.items
            :: s.commits⟩ ∧
    (∀ k, lookupAL k ((managerDelete
          (managerAdd aead s.mgr label password nonceSlice ov conf) label).1.store.items)
        = lookupAL k s.mgr.store.items) ∧
    lookupAL label ((managerDelete
          (managerAdd aead s.mgr label password nonceSlice ov conf) label).1.store.items)
      = none := by
  have hitems : (managerAdd aead s.mgr label password nonceSlice ov conf).store.items =
      insertAL label
        (Item.mk nonceSlice (aead.encrypt s.mgr.storeAesKey nonceSlice password))
        s.mgr.store.items := by
    simp [managerAdd, habs]
  have hdel : (managerDelete (managerAdd aead s.mgr label password nonceSlice ov conf)
        label).1.store.items =
      removeAL label (insertAL label
        (Item.mk nonceSlice (aead.encrypt s.mgr.storeAesKey nonceSlice password))
        s.mgr.store.items) := by
    simp [managerDelete, hitems]
  refine ⟨?_, ?_, ?_⟩
  · have hsv : sessionSave
        ⟨managerAdd aead s.mgr label password nonceSlice ov conf, s.commits⟩ msg =
        ⟨managerAdd aead s.mgr label password nonceSlice ov conf,
          CommitRec.mk msg
              (managerAdd aead s.mgr label password nonceSlice ov conf).store.items
            :: s.commits⟩ := rfl
    rw [hsv]
    simp [sessionUndoHead, hmsg, sessionUndoStoreAdd]
  · intro k
    rw [hdel, lookupAL_removeAL]
    by_cases hk : k = label
    · rw [if_pos hk, hk, habs]
    · rw [if_neg hk, lookupAL_insert_ne hk]
  · rw [hdel, lookupAL_removeAL, if_pos rfl]

theorem undo_add_amended_witness :
    sessionUndoHead (sessionSave
        ⟨managerAdd idAead ⟨⟨[], [], [], []⟩, [], [], false, none⟩ "y" [5] [6] false false,
          ([] : List CommitRec)⟩ "store add y") =
      UndoResult.ok
        ⟨(managerDelete (managerAdd idAead ⟨⟨[], [], [], []⟩, [], [], false, none⟩
            "y" [5] [6] false false) "y").1,
          [CommitRec.mk "store add y"
            (managerAdd idAead ⟨⟨[], [], [], []⟩, [], [], false, none⟩
              "y" [5] [6] false false).store.items]⟩ :=
  (undo_add_amended idAead ⟨⟨⟨[], [], [], []⟩, [], [], false, none⟩, []⟩ "y" [5] [6]
    false false "store add y" rfl rfl).1

/-! ## C10: undo of a store delete commit -/

/-- C10: undo on a commit whose message is `store delete <label>` is
total exactly when the parent commit's Store blob contains the label:
when the label is present, the parent's binding is restored into the
current item map; when it is absent, the direct map index
`old_store.items[&parts[2]]` panics instead of returning an error. -/
theorem undo_delete_requires_parent_label (s : Session) (c parent : CommitRec)
    (rest : List CommitRec) (label : String)
    (hc : s.commits = c :: parent :: rest)
    (hd : undoDispatch c.message = UndoOutcome.storeDeleteUndo label) :
    (sessionUndoHead s = UndoResult.idxOut ↔
      lookupAL label parent.storeItems = none) ∧
    (∀ item, lookupAL label parent.storeItems = some item →
      sessionUndoHead s = UndoResult.ok
        ⟨setItems s.mgr (insertAL label item s.mgr.store.items), s.commits⟩) := by
  constructor
  · cases hl : lookupAL label parent.storeItems with
    | none => simp [sessionUndoHead, hc, hd, hl]
    | some item => simp [sessionUndoHead, hc, hd, hl]
  · intro item hl
    simp [sessionUndoHead, hc, hd, hl]

theorem undo_delete_requires_parent_label_witness :
    sessionUndoHead ⟨⟨⟨[], [], [], []⟩, [], [], false, none⟩,
        [⟨"store delete x", []⟩, ⟨"prev commit", [("x", ⟨[1], [2]⟩)]⟩]⟩ =
      UndoResult.ok ⟨setItems ⟨⟨[], [], [], []⟩, [], [], false, none⟩
          (insertAL "x" ⟨[1], [2]⟩ []),
        [⟨"store delete x", []⟩, ⟨"prev commit", [("x", ⟨[1], [2]⟩)]⟩]⟩ :=
  (undo_delete_requires_parent_label _ ⟨"store delete x", []⟩
      ⟨"prev commit", [("x", ⟨[1], [2]⟩)]⟩ [] "x" rfl rfl).2 ⟨[1], [2]⟩ rfl

/-! ## Diff engine (src/diff.rs) -/

/-- `diff::Result`: the three key sets produced by the diff. -/
structure DiffResult (K : Type) where
  added : List K
  modified : List K
  deleted : List K

/-- `diff(lhs, rhs)`: a key of `lhs` absent from `rhs` is deleted; a key
of `rhs` absent from `lhs` is added; a key present in both with unequal
values is modified; unchanged keys are omitted. -/
def diff {K V : Type} [DecidableEq K] [DecidableEq V]
    (lhs rhs : List (K × V)) : DiffResult K where
  added := (rhs.filter (fun p => !containsKey p.1 lhs)).map Prod.fst
  modified := (rhs.filter (fun p =>
    match lookupAL p.1 lhs with
    | some oldValue => decide (p.2 ≠ oldValue)
    | none => false)).map Prod.fst
  deleted := (lhs.map Prod.fst).filter (fun k => !containsKey k rhs)

theorem lookupAL_eq_some_iff_mem {K V : Type} [DecidableEq K] {m : List (K × V)}
    (hn : (m.map Prod.fst).Nodup) (k : K) (v : V) :
    lookupAL k m = some v ↔ (k, v) ∈ m := by
  induction m with
  | nil => simp [lookupAL]
  | cons p ps ih =>
    simp only [List.map_cons, List.nodup_cons, List.mem_map] at hn
    obtain ⟨hp, hps⟩ := hn
    rcases p with ⟨pk, pv⟩
    by_cases h : pk = k
    · subst h
      constructor
      · intro hv
        have hv' : pv = v := by simpa [lookupAL] using hv
        subst hv'
        exact List.mem_cons_self _ _
      · intro hv
        rcases List.mem_cons.mp hv with h1 | h1
        · have hv' : v = pv := congrArg Prod.snd h1
          subst hv'
          simp [lookupAL]
        · exact absurd ⟨(pk, v), h1, rfl⟩ hp
    · constructor
      · intro hv
        have hv' : lookupAL k ps = some v := by simpa [lookupAL, h] using hv
        exact List.mem_cons_of_mem _ ((ih hps).mp hv')
      · intro hv
        rcases List.mem_cons.mp hv with h1 | h1
        · exact absurd (congrArg Prod.fst h1).symm h
        · simpa [lookupAL, h] using (ih hps).mpr h1

theorem mem_diff_deleted_iff {K V : Type} [DecidableEq K] [DecidableEq V]
    (lhs rhs : List (K × V)) (k : K) :
    k ∈ (diff lhs rhs).deleted ↔
      containsKey k lhs = true ∧ containsKey k rhs = false := by
  simp only [diff, List.mem_filter, Bool.not_eq_true']
  rw [← containsKey_iff_mem_keys]

theorem mem_diff_added_iff {K V : Type} [DecidableEq K] [DecidableEq V]
    (lhs rhs : List (K × V)) (k : K) :
    k ∈ (diff lhs rhs).added ↔
      containsKey k lhs = false ∧ containsKey k rhs = true := by
  simp only [diff, List.mem_map, List.mem_filter, Bool.not_eq_true']
  constructor
  · rintro ⟨p, ⟨hp, hc⟩, rfl⟩
    exact ⟨hc, (containsKey_iff_mem_keys _ _).mpr (List.mem_map_of_mem _ hp)⟩
  · rintro ⟨hcl, hcr⟩
    rcases List.mem_map.mp ((containsKey_iff_mem_keys _ _).mp hcr) with ⟨p, hp, rfl⟩
    exact ⟨p, ⟨hp, hcl⟩, rfl⟩

theorem mem_diff_modified_iff {K V : Type} [DecidableEq K] [DecidableEq V]
    (lhs rhs : List (K × V)) (hr : (rhs.map Prod.fst).Nodup) (k : K) :
    k ∈ (diff lhs rhs).modified ↔
      ∃ vOld vNew, lookupAL k lhs = some vOld ∧ lookupAL k rhs = some vNew ∧
        vNew ≠ vOld := by
  simp only [diff, List.mem_map, List.mem_filter]
  constructor
  · rintro ⟨p, ⟨hp, hcond⟩, rfl⟩
    cases hlk : lookupAL p.1 lhs with
    | none => rw [hlk] at hcond; simp at hcond
    | some oldValue =>
      rw [hlk] at hcond
      refine ⟨oldValue, p.2, rfl, ?_, by simpa using hcond⟩
      exact (lookupAL_eq_some_iff_mem hr p.1 p.2).mpr (by rw [Prod.mk.eta]; exact hp)
  · rintro ⟨vOld, vNew, hlo, hln, hne⟩
    refine ⟨(k, vNew), ⟨(lookupAL_eq_some_iff_mem hr k vNew).mp hln, ?_⟩, rfl⟩
    rw [hlo]
    simpa using hne

/-- A key is unchanged between two maps when both bind it to the same
value. -/
def unchangedKey {K V : Type} [DecidableEq K] (lhs rhs : List (K × V)) (k : K) :
    Prop :=
  ∃ v, lookupAL k lhs = some v ∧ lookupAL k rhs = some v

/-- Exactly one of four alternatives holds. -/
def ExactlyOne (a b c d : Prop) : Prop :=
  (a ∧ ¬b ∧ ¬c ∧ ¬d) ∨ (¬a ∧ b ∧ ¬c ∧ ¬d) ∨
    (¬a ∧ ¬b ∧ c ∧ ¬d) ∨ (¬a ∧ ¬b ∧ ¬c ∧ d)

/-- C2: `diff(old, new)` classifies a key as deleted iff present only in
`old`, added iff present only in `new`, and modified iff present in both
with unequal values; the three result sets are pairwise disjoint, and
every key of `old ∪ new` falls in exactly one of added, modified,
deleted, unchanged. -/
theorem diff_classification {K V : Type} [DecidableEq K] [DecidableEq V]
    (lhs rhs : List (K × V))
    (_hl : (lhs.map Prod.fst).Nodup) (hr : (rhs.map Prod.fst).Nodup) (k : K) :
    (k ∈ (diff lhs rhs).deleted ↔
      containsKey k lhs = true ∧ containsKey k rhs = false) ∧
    (k ∈ (diff lhs rhs).added ↔
      containsKey k lhs = false ∧ containsKey k rhs = true) ∧
    (k ∈ (diff lhs rhs).modified ↔
      ∃ vOld vNew, lookupAL k lhs = some vOld ∧ lookupAL k rhs = some vNew ∧
        vNew ≠ vOld) ∧
    ¬(k ∈ (diff lhs rhs).added ∧ k ∈ (diff lhs rhs).modified) ∧
    ¬(k ∈ (diff lhs rhs).added ∧ k ∈ (diff lhs rhs).deleted) ∧
    ¬(k ∈ (diff lhs rhs).modified ∧ k ∈ (diff lhs rhs).deleted) ∧
    (containsKey k lhs = true ∨ containsKey k rhs = true →
      ExactlyOne (k ∈ (diff lhs rhs).added) (k ∈ (diff lhs rhs).modified)
        (k ∈ (diff lhs rhs).deleted) (unchangedKey lhs rhs k)) := by
  have hdel := mem_diff_deleted_iff lhs rhs k
  have hadd := mem_diff_added_iff lhs rhs k
  have hmod := mem_diff_modified_iff lhs rhs hr k
  refine ⟨hdel, hadd, hmod, ?_, ?_, ?_, ?_⟩
  · rintro ⟨ha, hm⟩
    rcases hmod.mp hm with ⟨vOld, vNew, hlo, -, -⟩
    have hfalse := (hadd.mp ha).1
    simp [containsKey, hlo] at hfalse
  · rintro ⟨ha, hd⟩
    have h1 := (hadd.mp ha).1
    have h2 := (hdel.mp hd).1
    rw [h1] at h2
    cases h2
  · rintro ⟨hm, hd⟩
    rcases hmod.mp hm with ⟨vOld, vNew, -, hln, -⟩
    have hfalse := (hdel.mp hd).2
    simp [containsKey, hln] at hfalse
  · intro huniv
    cases hlo : lookupAL k lhs with
    | none =>
      cases hln : lookupAL k rhs with
      | none =>
        exfalso
        rcases huniv with h | h <;> simp [containsKey, hlo, hln] at h
      | some vNew =>
        refine Or.inl ⟨?_, ?_, ?_, ?_⟩
        · exact hadd.mpr ⟨by simp [containsKey, hlo], by simp [containsKey, hln]⟩
        · intro hm
          rcases hmod.mp hm with ⟨vOld, -, hlo2, -, -⟩
          rw [hlo] at hlo2
          cases hlo2
        · intro hd
          have hfalse := (hdel.mp hd).1
          simp [containsKey, hlo] at hfalse
        · rintro ⟨v, hv1, -⟩
          rw [hlo] at hv1
          cases hv1
    | some vOld =>
      cases hln : lookupAL k rhs with
      | none =>
        refine Or.inr (Or.inr (Or.inl ⟨?_, ?_, ?_, ?_⟩))
        · intro ha
          have hfalse := (hadd.mp ha).1
          simp [containsKey, hlo] at hfalse
        · intro hm
          rcases hmod.mp hm with ⟨-, vNew, -, hln2, -⟩
          rw [hln] at hln2
          cases hln2
        · exact hdel.mpr ⟨by simp [containsKey, hlo], by simp [containsKey, hln]⟩
        · rintro ⟨v, -, hv2⟩
          rw [hln] at hv2
          cases hv2
      | some vNew =>
        by_cases hv : vNew = vOld
        · subst hv
          refine Or.inr (Or.inr (Or.inr ⟨?_, ?_, ?_, ⟨vNew, hlo, hln⟩⟩))
          · intro ha
            have hfalse := (hadd.mp ha).1
            simp [containsKey, hlo] at hfalse
          · intro hm
            rcases hmod.mp hm with ⟨vOld2, vNew2, hlo2, hln2, hne⟩
            rw [hlo] at hlo2
            rw [hln] at hln2
            have e1 := Option.some.inj hlo2
            have e2 := Option.some.inj hln2
            exact hne (e2.symm.trans e1)
          · intro hd
            have hfalse := (hdel.mp hd).2
            simp [containsKey, hln] at hfalse
        · refine Or.inr (Or.inl ⟨?_, hmod.mpr ⟨vOld, vNew, hlo, hln, hv⟩, ?_, ?_⟩)
          · intro ha
            have hfalse := (hadd.mp ha).1
            simp [containsKey, hlo] at hfalse
          · intro hd
            have hfalse := (hdel.mp hd).2
            simp [containsKey, hln] at hfalse
          · rintro ⟨v, hv1, hv2⟩
            rw [hlo] at hv1
            rw [hln] at hv2
            have e1 := Option.some.inj hv1
            have e2 := Option.some.inj hv2
            exact hv (e2.trans e1.symm)

theorem diff_classification_witness :
    (1 ∈ (diff [(0, 10), (1, 11)] [(1, 12), (2, 13)]).modified ↔
      ∃ vOld vNew, lookupAL 1 [(0, 10), (1, 11)] = some vOld ∧
        lookupAL 1 [(1, 12), (2, 13)] = some vNew ∧ vNew ≠ vOld) ∧
    ExactlyOne (1 ∈ (diff [(0, 10), (1, 11)] [(1, 12), (2, 13)]).added)
      (1 ∈ (diff [(0, 10), (1, 11)] [(1, 12), (2, 13)]).modified)
      (1 ∈ (diff [(0, 10), (1, 11)] [(1, 12), (2, 13)]).deleted)
      (unchangedKey [(0, 10), (1, 11)] [(1, 12), (2, 13)] 1) := by
  have h := diff_classification [(0, 10), (1, 11)] [(1, 12), (2, 13)]
    (by decide) (by decide) 1
  exact ⟨h.2.2.1, h.2.2.2.2.2.2 (by decide)⟩

/-! ## Generated passwords (the non-input branch of Manager::add) -/

/-- The 94-byte charset literal of `Manager::add`: the digits, the upper
and lower case letters, then the ASCII punctuation blocks 33..47, 58..64,
91..96 and 123..126, in that order. -/
def password_charset : List Nat :=
  ((List.range 10).map (fun i => 48 + i)) ++
    ((List.range 26).map (fun i => 65 + i)) ++
    ((List.range 26).map (fun i => 97 + i)) ++
    ((List.range 15).map (fun i => 33 + i)) ++
    ((List.range 7).map (fun i => 58 + i)) ++
    ((List.range 6).map (fun i => 91 + i)) ++
    ((List.range 4).map (fun i => 123 + i))

theorem password_charset_length : password_charset.length = 94 := by decide

/-- The contract of rand's `SliceRandom::choose_multiple` (composed with
`copied().collect()`): it samples elements without repetition — the
result is a permutation of a sublist of the slice — and returns `amount`
elements, except that a slice shorter than `amount` is returned whole
(shuffled), so the result length is `min amount len`. -/
def SamplerSpec (sampler : List Nat → Nat → List Nat) : Prop :=
  ∀ pool amount, (sampler pool amount).length = min amount pool.length ∧
    List.Subperm (sampler pool amount) pool

/-- The password-generation branch of `Manager::add`: restrict the
charset to its first 62 bytes unless `special_chars` is set, and sample
`len` of them without replacement. -/
def generatePassword (sampler : List Nat → Nat → List Nat) (len : Nat)
    (special_chars : Bool) : List Nat :=
  sampler (password_charset.take (if special_chars then 94 else 62)) len

theorem takeSampler_spec : SamplerSpec (fun pool amount => pool.take amount) := by
  intro pool amount
  exact ⟨List.length_take amount pool, (List.take_sublist amount pool).subperm⟩

/-- C9 counterexample: a sampler satisfying choose_multiple's contract
for which the requested length 63 over the 62-character alphanumeric
alphabet yields a 62-character password, so the generated password does
not always have exactly `len` characters. -/
theorem generated_password_counterexample :
    SamplerSpec (fun pool amount => pool.take amount) ∧
    (generatePassword (fun pool amount => pool.take amount) 63 false).length = 62 ∧
    (62 : Nat) ≠ 63 :=
  ⟨takeSampler_spec, by decide, by decide⟩

/-- C9 amended: under choose_multiple's contract the generated password
draws without replacement from the 62-character alphanumeric alphabet
(94 characters when `special_chars` is set) — no repeated characters,
all from the charset — and has `min len (alphabet size)` characters; in
particular exactly `len` characters whenever `len` does not exceed the
alphabet size. -/
theorem generated_password_amended (sampler : List Nat → Nat → List Nat)
    (hs : SamplerSpec sampler) (len : Nat) (special_chars : Bool) :
    (generatePassword sampler len special_chars).length =
      min len (if special_chars then 94 else 62) ∧
    (generatePassword sampler len special_chars).Nodup ∧
    (∀ ch ∈ generatePassword sampler len special_chars, ch ∈ password_charset) ∧
    (len ≤ (if special_chars then 94 else 62) →
      (generatePassword sampler len special_chars).length = len) := by
  obtain ⟨hlen, hsub⟩ := hs (password_charset.take (if special_chars then 94 else 62)) len
  have hpoollen : (password_charset.take (if special_chars then 94 else 62)).length =
      (if special_chars then 94 else 62) := by
    cases special_chars <;> decide
  have hpoolnodup : (password_charset.take (if special_chars then 94 else 62)).Nodup := by
    cases special_chars <;> decide
  refine ⟨?_, ?_, ?_, ?_⟩
  · rw [generatePassword, hlen, hpoollen]
  · obtain ⟨l, hperm, hsl⟩ := hsub
    exact hperm.nodup_iff.mp (hpoolnodup.sublist hsl)
  · intro ch hch
    exact List.take_subset _ _ (hsub.subset hch)
  · intro hle
    rw [generatePassword, hlen, hpoollen]
    exact Nat.min_eq_left hle

theorem generated_password_amended_witness :
    (generatePassword (fun pool amount => pool.take amount) 16 false).length =
      min 16 62 ∧
    (generatePassword (fun pool amount => pool.take amount) 16 false).Nodup ∧
    (∀ ch ∈ generatePassword (fun pool amount => pool.take amount) 16 false,
      ch ∈ password_charset) ∧
    ((16 : Nat) ≤ 62 →
      (generatePassword (fun pool amount => pool.take amount) 16 false).length = 16) := by
  have h := generated_password_amended (fun pool amount => pool.take amount)
    takeSampler_spec 16 false
  exact ⟨h.1, h.2.1, h.2.2.1, fun _ => h.2.2.2 (by decide)⟩

/-! ## Remote credentials: the credential-helper output parsers -/

/-- Rust `str::split_terminator(sep)`: like split, except a trailing
empty fragment is skipped (the empty string yields no fragments). -/
def splitTerminator (sep : Char) (l : List Char) : List (List Char) :=
  let parts := splitChar sep l
  if parts.getLast? = some [] then parts.dropLast else parts

/-- Rust `str::split_once(sep)`: the fragments before and after the
first occurrence of the separator, or `none` when it does not occur. -/
def splitOnce (sep : Char) : List Char → Option (List Char × List Char)
  | [] => none
  | c :: cs =>
    if c = sep then some ([], cs)
    else (splitOnce sep cs).map (fun pr => (c :: pr.1, pr.2))

/-- The failures of credential acquisition: a line without a `=`
separator (`SplitErr`), or an absent key (`CredsErr { key }`, whose
message names the missing key or keys). -/
inductive CredErr where
  | splitErr
  | missing (key : String)
deriving DecidableEq, Repr

/-- The loop of user.rs's `get_remote_credentials`: walk the `key=value`
lines, remembering the last `username` and `password` values seen. -/
def scanCreds : List (List Char) → Option String × Option String →
    Except CredErr (Option String × Option String)
  | [], creds => Except.ok creds
  | line :: rest, creds =>
    match splitOnce '=' line with
    | none => Except.error CredErr.splitErr
    | some (k, v) =>
      if String.mk k = "username" then
        scanCreds rest (some (String.mk v), creds.2)
      else if String.mk k = "password" then
        scanCreds rest (creds.1, some (String.mk v))
      else scanCreds rest creds

/-- user.rs `get_remote_credentials`: parse the helper output and fail
with an error naming exactly the absent key(s) when `username`,
`password`, or both never occurred. -/
def User.get_remote_credentials (output : String) :
    Except CredErr (String × String) :=
  match scanCreds (splitTerminator '\n' output.data) (none, none) with
  | Except.error e => Except.error e
  | Except.ok (some u, some p) => Except.ok (u, p)
  | Except.ok (none, some _) => Except.error (CredErr.missing "username")
  | Except.ok (some _, none) => Except.error (CredErr.missing "password")
  | Except.ok (none, none) => Except.error (CredErr.missing "username, password")

/-- The loop of store.rs's private `get_remote_credentials`: insert every
`key=value` line into a map, with no presence check for any key. -/
def collectConfig : List (List Char) → List (String × String) →
    Except CredErr (List (String × String))
  | [], config => Except.ok config
  | line :: rest, config =>
    match splitOnce '=' line with
    | none => Except.error CredErr.splitErr
    | some (k, v) => collectConfig rest (insertAL (String.mk k) (String.mk v) config)

/-- store.rs `get_remote_credentials` (the version the sync push and
pull callbacks call): returns the raw map. -/
def StoreSync.get_remote_credentials (output : String) :
    Except CredErr (List (String × String)) :=
  collectConfig (splitTerminator '\n' output.data) []

/-- What a sync credential callback does with the helper output:
`gitErr` is the mapped-away "Couldn't get credentials" failure, and
`mapPanic` the panicking `cred["username"]` / `cred["password"]` map
index on an absent key. -/
inductive CredOutcome where
  | gitErr
  | mapPanic
  | ok (username password : String)
deriving DecidableEq, Repr

/-- The credential callback installed by `Manager::sync` for both push
and pull: call store.rs's `get_remote_credentials`, turn its failure
into a plain git error, then index the map at `username` and `password`
— a direct index that panics when either key is absent. -/
def syncCredCallback (output : String) : CredOutcome :=
  match StoreSync.get_remote_credentials output with
  | Except.error _ => CredOutcome.gitErr
  | Except.ok cred =>
    match lookupAL "username" cred, lookupAL "password" cred with
    | some u, some p => CredOutcome.ok u p
    | _, _ => CredOutcome.mapPanic

/-- A helper-output line is well formed when it contains a `=`. -/
def lineWellFormed (line : List Char) : Bool := (splitOnce '=' line).isSome

/-- Whether some line of the helper output carries the given key. -/
def hasKeyLines (lines : List (List Char)) (key : String) : Bool :=
  lines.any (fun line =>
    match splitOnce '=' line with
    | some kv => decide (String.mk kv.1 = key)
    | none => false)

theorem containsKey_insertAL {K V : Type} [DecidableEq K] (k k' : K) (v : V)
    (m : List (K × V)) :
    containsKey k (insertAL k' v m) = (decide (k' = k) || containsKey k m) := by
  by_cases h : k = k'
  · subst h
    simp [containsKey, lookupAL_insert]
  · have h' : ¬k' = k := fun hh => h hh.symm
    simp [containsKey, lookupAL_insert_ne h, h']

theorem lookupAL_eq_none_of_not_contains {K V : Type} [DecidableEq K] {k : K}
    {m : List (K × V)} (h : containsKey k m = false) : lookupAL k m = none := by
  cases hl : lookupAL k m with
  | none => rfl
  | some v => rw [containsKey, hl] at h; cases h

theorem scanCreds_ok (lines : List (List Char))
    (hwf : lines.all lineWellFormed = true) (creds : Option String × Option String) :
    ∃ creds', scanCreds lines creds = Except.ok creds' ∧
      creds'.1.isSome = (hasKeyLines lines "username" || creds.1.isSome) ∧
      creds'.2.isSome = (hasKeyLines lines "password" || creds.2.isSome) := by
  induction lines generalizing creds with
  | nil => exact ⟨creds, rfl, by simp [hasKeyLines], by simp [hasKeyLines]⟩
  | cons line rest ih =>
    simp only [List.all_cons, Bool.and_eq_true] at hwf
    obtain ⟨hline, hrest⟩ := hwf
    cases hsp : splitOnce '=' line with
    | none => rw [lineWellFormed, hsp] at hline; cases hline
    | some kv =>
      rcases kv with ⟨k, v⟩
      by_cases hk : String.mk k = "username"
      · obtain ⟨creds', h1, h2, h3⟩ := ih hrest (some (String.mk v), creds.2)
        refine ⟨creds', ?_, ?_, ?_⟩
        · simp only [scanCreds, hsp]
          rw [if_pos hk]
          exact h1
        · rw [h2]
          simp [hasKeyLines, hsp, hk]
        · rw [h3]
          have hk' : ¬String.mk k = "password" := by rw [hk]; decide
          simp [hasKeyLines, hsp, hk', Bool.or_assoc]
      · by_cases hp : String.mk k = "password"
        · obtain ⟨creds', h1, h2, h3⟩ := ih hrest (creds.1, some (String.mk v))
          refine ⟨creds', ?_, ?_, ?_⟩
          · simp only [scanCreds, hsp]
            rw [if_neg hk, if_pos hp]
            exact h1
          · rw [h2]
            simp [hasKeyLines, hsp, hk, Bool.or_assoc]
          · rw [h3]
            simp [hasKeyLines, hsp, hp]
        · obtain ⟨creds', h1, h2, h3⟩ := ih hrest creds
          refine ⟨creds', ?_, ?_, ?_⟩
          · simp only [scanCreds, hsp]
            rw [if_neg hk, if_neg hp]
            exact h1
          · rw [h2]
            simp [hasKeyLines, hsp, hk, Bool.or_assoc]
          · rw [h3]
            simp [hasKeyLines, hsp, hp, Bool.or_assoc]

theorem collectConfig_ok (lines : List (List Char))
    (hwf : lines.all lineWellFormed = true) (config : List (String × String))
    (key : String) :
    ∃ config', collectConfig lines config = Except.ok config' ∧
      containsKey key config' = (hasKeyLines lines key || containsKey key config) := by
  induction lines generalizing config with
  | nil => exact ⟨config, rfl, by simp [hasKeyLines]⟩
  | cons line rest ih =>
    simp only [List.all_cons, Bool.and_eq_true] at hwf
    obtain ⟨hline, hrest⟩ := hwf
    cases hsp : splitOnce '=' line with
    | none => rw [lineWellFormed, hsp] at hline; cases hline
    | some kv =>
      rcases kv with ⟨k, v⟩
      obtain ⟨config', h1, h2⟩ := ih hrest (insertAL (String.mk k) (String.mk v) config)
      refine ⟨config', ?_, ?_⟩
      · simp only [collectConfig, hsp]
        exact h1
      · have hcons : hasKeyLines (line :: rest) key =
            (decide (String.mk k = key) || hasKeyLines rest key) := by
          simp [hasKeyLines, hsp]
        rw [h2, containsKey_insertAL, hcons]
        cases hx : decide (String.mk k = key) <;>
          cases hy : hasKeyLines rest key <;>
            cases hz : containsKey key config <;>
              simp [hx, hy, hz]

/-! ## C8: missing credential keys -/

/-- C8 counterexample: on helper output carrying only a username, the
user-record path fails naming "password", but the sync credential
callback — which parses with store.rs's checkless variant and then
indexes the map — panics instead of failing with an error naming the
absent key. -/
theorem sync_credentials_counterexample :
    User.get_remote_credentials "username=u" =
      Except.error (CredErr.missing "password") ∧
    syncCredCallback "username=u" = CredOutcome.mapPanic :=
  ⟨rfl, rfl⟩

/-- C8 amended: when every line of the helper output is well formed, the
user-record path (user.rs) fails with an error naming exactly the absent
key(s) among username and password, and returns credentials when both
are present; the sync push and pull paths, however, parse with a variant
that performs no presence check and panic on the map index whenever
either key is absent. -/
theorem credentials_missing_key_amended (output : String)
    (hwf : (splitTerminator '\n' output.data).all lineWellFormed = true) :
    (hasKeyLines (splitTerminator '\n' output.data) "username" = false →
      hasKeyLines (splitTerminator '\n' output.data) "password" = true →
      User.get_remote_credentials output =
        Except.error (CredErr.missing "username") ∧
      syncCredCallback output = CredOutcome.mapPanic) ∧
    (hasKeyLines (splitTerminator '\n' output.data) "username" = true →
      hasKeyLines (splitTerminator '\n' output.data) "password" = false →
      User.get_remote_credentials output =
        Except.error (CredErr.missing "password") ∧
      syncCredCallback output = CredOutcome.mapPanic) ∧
    (hasKeyLines (splitTerminator '\n' output.data) "username" = false →
      hasKeyLines (splitTerminator '\n' output.data) "password" = false →
      User.get_remote_credentials output =
        Except.error (CredErr.missing "username, password") ∧
      syncCredCallback output = CredOutcome.mapPanic) ∧
    (hasKeyLines (splitTerminator '\n' output.data) "username" = true →
      hasKeyLines (splitTerminator '\n' output.data) "password" = true →
      (∃ u p, User.get_remote_credentials output = Except.ok (u, p)) ∧
      (∃ u p, syncCredCallback output = CredOutcome.ok u p)) := by
  obtain ⟨creds', hscan, hu, hp⟩ :=
    scanCreds_ok (splitTerminator '\n' output.data) hwf (none, none)
  obtain ⟨cu, hcfg, hcu⟩ :=
    collectConfig_ok (splitTerminator '\n' output.data) hwf [] "username"
  obtain ⟨cp, hcfg2, hcp⟩ :=
    collectConfig_ok (splitTerminator '\n' output.data) hwf [] "password"
  have hcc : cp = cu := by
    rw [hcfg] at hcfg2
    exact (Except.ok.inj hcfg2).symm
  subst hcc
  rcases creds' with ⟨c1, c2⟩
  simp only [Option.isSome_none, Bool.or_false] at hu hp
  have h0u : containsKey "username" ([] : List (String × String)) = false := rfl
  have h0p : containsKey "password" ([] : List (String × String)) = false := rfl
  rw [h0u, Bool.or_false] at hcu
  rw [h0p, Bool.or_false] at hcp
  refine ⟨?_, ?_, ?_, ?_⟩
  · intro h1 h2
    have hc1 : c1 = none := by
      cases hc : c1 with
      | none => rfl
      | some u => rw [hc, h1] at hu; cases hu
    obtain ⟨p, hc2⟩ := Option.isSome_iff_exists.mp (hp.trans h2)
    constructor
    · simp only [User.get_remote_credentials]
      rw [hscan, hc1, hc2]
    · have hnu := lookupAL_eq_none_of_not_contains (hcu.trans h1)
      simp [syncCredCallback, StoreSync.get_remote_credentials, hcfg, hnu]
  · intro h1 h2
    obtain ⟨u, hc1⟩ := Option.isSome_iff_exists.mp (hu.trans h1)
    have hc2 : c2 = none := by
      cases hc : c2 with
      | none => rfl
      | some p => rw [hc, h2] at hp; cases hp
    constructor
    · simp only [User.get_remote_credentials]
      rw [hscan, hc1, hc2]
    · have hnp := lookupAL_eq_none_of_not_contains (hcp.trans h2)
      obtain ⟨vu, hvu⟩ := Option.isSome_iff_exists.mp (hcu.trans h1)
      simp [syncCredCallback, StoreSync.get_remote_credentials, hcfg, hnp, hvu]
  · intro h1 h2
    have hc1 : c1 = none := by
      cases hc : c1 with
      | none => rfl
      | some u => rw [hc, h1] at hu; cases hu
    have hc2 : c2 = none := by
      cases hc : c2 with
      | none => rfl
      | some p => rw [hc, h2] at hp; cases hp
    constructor
    · simp only [User.get_remote_credentials]
      rw [hscan, hc1, hc2]
    · have hnu := lookupAL_eq_none_of_not_contains (hcu.trans h1)
      simp [syncCredCallback, StoreSync.get_remote_credentials, hcfg, hnu]
  · intro h1 h2
    obtain ⟨u, hc1⟩ := Option.isSome_iff_exists.mp (hu.trans h1)
    obtain ⟨p, hc2⟩ := Option.isSome_iff_exists.mp (hp.trans h2)
    constructor
    · refine ⟨u, p, ?_⟩
      simp only [User.get_remote_credentials]
      rw [hscan, hc1, hc2]
    · obtain ⟨vu, hvu⟩ := Option.isSome_iff_exists.mp (hcu.trans h1)
      obtain ⟨vp, hvp⟩ := Option.isSome_iff_exists.mp (hcp.trans h2)
      refine ⟨vu, vp, ?_⟩
      simp [syncCredCallback, StoreSync.get_remote_credentials, hcfg, hvu, hvp]

theorem credentials_missing_key_amended_witness :
    User.get_remote_credentials "password=p\nother=x" =
      Except.error (CredErr.missing "username") ∧
    syncCredCallback "password=p\nother=x" = CredOutcome.mapPanic := by
  have h := credentials_missing_key_amended "password=p\nother=x" (by decide)
  exact h.1 (by decide) (by decide)
